import Mathlib

/-!
Verification of the BI-KPI-Framework analytics engine.

Shallow embedding of the analytics code in `analyst_workload.py`,
`financial_metrics.py` and `invoice_processing.py`.  Tabular data
(pandas DataFrames) is modelled as lists of records; monetary and
percentage columns as ℚ; integer columns as ℤ; pandas `round(x, 2)`
as rounding to an integer multiple of 1/100 (exact on every value the
claims touch, so float representation and tie-breaking never matter).
`sort_values` uses an unstable quicksort, so any correctly ordered
permutation is a faithful model; we use `List.insertionSort`, which is
structurally recursive and hence evaluable inside proofs.  Division in
ℚ returns 0 on a zero denominator; where this matters (HHI with a zero
total cost) it agrees with the value pandas actually produces there
(NaN shares are skipped by `Series.sum`, yielding 0.0).
-/

/-- One row of the Orders table (columns used by the verified components;
`sale_amount`, `margin`, `order_date`, `status` are never read by them). -/
structure Order where
  order_id : String
  analyst_id : String
  supplier_id : String
  num_skus : ℤ
  total_cost : ℚ
  margin_pct : ℚ
  deriving DecidableEq

/-- One row of the OrderLines table (`quantity` and `unit_price` are never
read by the verified components). -/
structure OrderLine where
  order_id : String
  sku : String
  line_total : ℚ
  deriving DecidableEq

/-- One row of the SKUs table (only the columns `sku` and `category` are
read; `sku` is a unique key). -/
structure SKUInfo where
  sku : String
  category : String
  deriving DecidableEq

/-- Pandas `round(x, 2)`: round to the nearest multiple of 1/100. -/
def round2 (q : ℚ) : ℚ := (round (q * 100) : ℤ) / 100

/-- `AnalystWorkloadKPI.COMPLEXITY_CATEGORIES`: label, lower bound,
upper bound (`none` embeds `float('inf')`). -/
def COMPLEXITY_CATEGORIES : List (String × ℤ × Option ℤ) :=
  [("Muy Simple", 1, some 5), ("Simple", 6, some 20),
   ("Moderado", 21, some 50), ("Complejo", 51, none)]

/-- The membership test `min_val <= num_skus <= max_val` of the loop in
`_categorize_complexity.get_complexity`. -/
def in_bin (n : ℤ) (lo : ℤ) (hi : Option ℤ) : Bool :=
  decide (lo ≤ n) && (match hi with | some h => decide (n ≤ h) | none => true)

/-- First matching bin, as the `for` loop of `get_complexity` returns on
the first hit. -/
def find_category (n : ℤ) : List (String × ℤ × Option ℤ) → Option String
  | [] => none
  | e :: rest => if in_bin n e.2.1 e.2.2 then some e.1 else find_category n rest

/-- `get_complexity` in `_categorize_complexity`: first bin containing
`num_skus`, with the `return 'Complejo'` fallthrough. -/
def get_complexity (n : ℤ) : String :=
  (find_category n COMPLEXITY_CATEGORIES).getD "Complejo"

/-- `AnalystWorkloadKPI.COMPLEXITY_WEIGHTS`. -/
def COMPLEXITY_WEIGHTS : List (String × ℚ) :=
  [("Muy Simple", 1), ("Simple", 2.5), ("Moderado", 5), ("Complejo", 10)]

/-- The `.map(COMPLEXITY_WEIGHTS)` lookup.  A missing key would give NaN
in pandas; it never occurs since `get_complexity` only produces the four
keys of the dict (`get_complexity_mem` below), so the default is inert. -/
def complexity_weight (c : String) : ℚ := (COMPLEXITY_WEIGHTS.lookup c).getD 0

/-- Closed form of the classifier, proved from the loop embedding. -/
lemma get_complexity_eq (n : ℤ) :
    get_complexity n =
      if 1 ≤ n ∧ n ≤ 5 then "Muy Simple"
      else if 6 ≤ n ∧ n ≤ 20 then "Simple"
      else if 21 ≤ n ∧ n ≤ 50 then "Moderado"
      else if 51 ≤ n then "Complejo"
      else "Complejo" := by
  simp only [get_complexity, COMPLEXITY_CATEGORIES, find_category, in_bin,
    Bool.and_eq_true, decide_eq_true_eq]
  split_ifs <;> simp_all

lemma weight_muy_simple : complexity_weight "Muy Simple" = 1 := by
  norm_num [complexity_weight, COMPLEXITY_WEIGHTS, List.lookup]

lemma weight_simple : complexity_weight "Simple" = 2.5 := by
  norm_num [complexity_weight, COMPLEXITY_WEIGHTS, List.lookup]
  rfl

lemma weight_moderado : complexity_weight "Moderado" = 5 := by
  norm_num [complexity_weight, COMPLEXITY_WEIGHTS, List.lookup]
  rfl

lemma weight_complejo : complexity_weight "Complejo" = 10 := by
  norm_num [complexity_weight, COMPLEXITY_WEIGHTS, List.lookup]
  rfl

/-- The classifier only ever produces the four configured labels. -/
lemma get_complexity_mem (n : ℤ) :
    get_complexity n ∈ ["Muy Simple", "Simple", "Moderado", "Complejo"] := by
  rw [get_complexity_eq]
  split_ifs <;> simp

/-- The looked-up weight of any classified order is at least 1. -/
lemma one_le_weight_get_complexity (n : ℤ) :
    1 ≤ complexity_weight (get_complexity n) := by
  rw [get_complexity_eq]
  split_ifs <;>
    simp only [weight_muy_simple, weight_simple, weight_moderado, weight_complejo] <;>
    norm_num

/-- C1: for every SKU count n ≥ 1 the classifier assigns exactly one of the
four categories, according to the inclusive bins [1,5] Muy Simple (weight
1.0), [6,20] Simple (2.5), [21,50] Moderado (5.0), [51,∞) Complejo (10.0),
and the weight of the assigned category is monotonically non-decreasing
in n.  (The spec's English labels Very-Simple/Simple/Moderate/Complex are
the source's Spanish labels.) -/
theorem complexity_classifier_bins_weights_monotone (n : ℤ) (h1 : 1 ≤ n) :
    get_complexity n ∈ ["Muy Simple", "Simple", "Moderado", "Complejo"] ∧
    (n ≤ 5 → get_complexity n = "Muy Simple") ∧
    (6 ≤ n → n ≤ 20 → get_complexity n = "Simple") ∧
    (21 ≤ n → n ≤ 50 → get_complexity n = "Moderado") ∧
    (51 ≤ n → get_complexity n = "Complejo") ∧
    complexity_weight "Muy Simple" = 1 ∧
    complexity_weight "Simple" = 2.5 ∧
    complexity_weight "Moderado" = 5 ∧
    complexity_weight "Complejo" = 10 ∧
    (∀ m : ℤ, n ≤ m →
      complexity_weight (get_complexity n) ≤ complexity_weight (get_complexity m)) := by
  refine ⟨get_complexity_mem n, ?_, ?_, ?_, ?_, weight_muy_simple, weight_simple,
    weight_moderado, weight_complejo, ?_⟩
  · intro h2; rw [get_complexity_eq]; simp only [if_pos (And.intro h1 h2)]
  · intro h2 h3; rw [get_complexity_eq]; split_ifs <;> first | rfl | omega
  · intro h2 h3; rw [get_complexity_eq]; split_ifs <;> first | rfl | omega
  · intro h2; rw [get_complexity_eq]; split_ifs <;> first | rfl | omega
  · intro m hm
    have hm1 : 1 ≤ m := le_trans h1 hm
    rw [get_complexity_eq n, get_complexity_eq m]
    split_ifs <;>
      simp only [weight_muy_simple, weight_simple, weight_moderado, weight_complejo] <;>
      first | (exfalso; omega) | norm_num

/-- Witness for C1 at concrete inputs: n = 3 classifies as Muy Simple and
its weight is below the weight at m = 60. -/
theorem complexity_classifier_bins_weights_monotone_witness :
    get_complexity 3 = "Muy Simple" ∧
    complexity_weight (get_complexity 3) ≤ complexity_weight (get_complexity 60) := by
  have h := complexity_classifier_bins_weights_monotone 3 (by norm_num)
  exact ⟨h.2.1 (by norm_num), h.2.2.2.2.2.2.2.2.2 60 (by norm_num)⟩

/-- C10: a non-positive SKU count falls through every bin of the loop and
is silently classified by the `return 'Complejo'` fallthrough, with weight
10.0; the code performs no input validation and raises no error (the
embedding is a total function). -/
theorem complexity_classifier_nonpositive_catch_all (n : ℤ) (h : n ≤ 0) :
    get_complexity n = "Complejo" ∧
    complexity_weight (get_complexity n) = 10 := by
  have he : get_complexity n = "Complejo" := by
    rw [get_complexity_eq]; split_ifs <;> first | rfl | omega
  exact ⟨he, by rw [he]; exact weight_complejo⟩

/-- Witness for C10 at n = 0. -/
theorem complexity_classifier_nonpositive_catch_all_witness :
    get_complexity 0 = "Complejo" ∧
    complexity_weight (get_complexity 0) = 10 :=
  complexity_classifier_nonpositive_catch_all 0 (by norm_num)

/-- Splitting a length over a Boolean filter and its complement. -/
lemma length_filter_split {α : Type} (p : α → Bool) :
    ∀ l : List α, (l.filter p).length + (l.filter (fun a => !(p a))).length = l.length := by
  intro l
  induction l with
  | nil => rfl
  | cons a l ih => by_cases h : p a = true <;> simp [List.filter_cons, h] <;> omega

/-- Summing fiber sizes over a covering list of distinct keys gives the total
size: the partition fact behind `groupby(...).size().unstack(fill_value=0)`. -/
lemma length_fiber {α κ : Type} [DecidableEq κ] :
    ∀ (keys : List κ) (l : List α) (f : α → κ), keys.Nodup → (∀ a ∈ l, f a ∈ keys) →
      (keys.map (fun k => (l.filter (fun a => f a = k)).length)).sum = l.length := by
  intro keys
  induction keys with
  | nil =>
    intro l f _ hcov
    have hl : l = [] := List.eq_nil_iff_forall_not_mem.mpr fun a ha => by
      simpa using hcov a ha
    subst hl; rfl
  | cons k ks ih =>
    intro l f hnd hcov
    obtain ⟨hk, hks⟩ := List.nodup_cons.mp hnd
    have hstep : ∀ k2 ∈ ks,
        (l.filter (fun a => f a = k2)).length
          = ((l.filter (fun a => !(decide (f a = k)))).filter (fun a => f a = k2)).length := by
      intro k2 hk2
      rw [List.filter_filter]
      apply congrArg
      apply List.filter_congr
      intro a _
      by_cases hfa : f a = k2
      · have hne : ¬ f a = k := fun hfk => hk ((hfk.symm.trans hfa) ▸ hk2)
        simp [hfa]
        exact fun hkk => hne (hfa.trans hkk)
      · simp [hfa]
    calc ((k :: ks).map (fun k2 => (l.filter (fun a => f a = k2)).length)).sum
        = (l.filter (fun a => f a = k)).length +
            (ks.map (fun k2 => (l.filter (fun a => f a = k2)).length)).sum := by
          simp
      _ = (l.filter (fun a => f a = k)).length +
            (ks.map (fun k2 => ((l.filter (fun a => !(decide (f a = k)))).filter
              (fun a => f a = k2)).length)).sum := by
          rw [List.map_congr_left hstep]
      _ = (l.filter (fun a => f a = k)).length +
            (l.filter (fun a => !(decide (f a = k)))).length := by
          rw [ih (l.filter (fun a => !(decide (f a = k)))) f hks]
          intro a ha
          rcases List.mem_filter.mp ha with ⟨hal, hnk⟩
          have : f a ∈ k :: ks := hcov a hal
          simp only [Bool.not_eq_true', decide_eq_false_iff_not] at hnk
          rcases List.mem_cons.mp this with h | h
          · exact absurd h hnk
          · exact h
      _ = l.length := length_filter_split _ l

/-- The four complexity labels, in configuration order (pandas `unstack`
would order the breakdown columns alphabetically; column order carries no
content, the counts do). -/
def CATEGORY_LABELS : List String := ["Muy Simple", "Simple", "Moderado", "Complejo"]

/-- The rows of `orders_df` in one `groupby('analyst_id')` group. -/
def analyst_group (orders : List Order) (a : String) : List Order :=
  orders.filter (fun o => o.analyst_id = a)

/-- `'order_id': 'count'` for one analyst group. -/
def total_tickets (orders : List Order) (a : String) : ℕ :=
  (analyst_group orders a).length

/-- `'num_skus': 'sum'` for one analyst group. -/
def total_skus (orders : List Order) (a : String) : ℤ :=
  ((analyst_group orders a).map (fun o => o.num_skus)).sum

/-- `'complexity_weight': 'sum'` for one analyst group, before the final
`round(2)`. -/
def raw_weighted_workload (orders : List Order) (a : String) : ℚ :=
  ((analyst_group orders a).map
    (fun o => complexity_weight (get_complexity o.num_skus))).sum

/-- One cell of `groupby(['analyst_id','complexity']).size().unstack(fill_value=0)`:
the number of the analyst's orders in one complexity category (0 when the
category is absent for that analyst). -/
def breakdown (orders : List Order) (a : String) (c : String) : ℕ :=
  ((analyst_group orders a).filter (fun o => get_complexity o.num_skus = c)).length

/-- One output row of `calculate_workload_by_analyst`. -/
structure WorkloadRow where
  analyst_id : String
  total_tickets : ℕ
  total_skus : ℤ
  weighted_workload : ℚ
  cat_counts : List (String × ℕ)
  avg_skus_per_ticket : ℚ
  avg_complexity_weight : ℚ
  deriving DecidableEq

/-- The row `calculate_workload_by_analyst` produces for analyst `a`:
aggregation sums, per-category breakdown, derived averages computed from
the unrounded sums, and the trailing `.round(2)` applied to the fractional
columns (it is the identity on the integer count columns). -/
def workload_row (orders : List Order) (a : String) : WorkloadRow where
  analyst_id := a
  total_tickets := total_tickets orders a
  total_skus := total_skus orders a
  weighted_workload := round2 (raw_weighted_workload orders a)
  cat_counts := CATEGORY_LABELS.map (fun c => (c, breakdown orders a c))
  avg_skus_per_ticket :=
    round2 ((total_skus orders a : ℚ) / (total_tickets orders a : ℚ))
  avg_complexity_weight :=
    round2 (raw_weighted_workload orders a / (total_tickets orders a : ℚ))

/-- `calculate_workload_by_analyst`: one row per distinct analyst, with the
group keys in the sorted order `groupby` produces. -/
def calculate_workload_by_analyst (orders : List Order) : List WorkloadRow :=
  (List.insertionSort (fun a b : String => a ≤ b)
    ((orders.map (fun o => o.analyst_id)).dedup)).map (workload_row orders)

/-- C2: for every input order table and every analyst row in the output of
`calculate_workload_by_analyst`, the per-complexity-category breakdown
counts sum to that analyst's total ticket count; a category with no orders
for the analyst contributes a 0 count rather than an error. -/
theorem workload_breakdown_sums_to_tickets (orders : List Order)
    (r : WorkloadRow) (hr : r ∈ calculate_workload_by_analyst orders) :
    (r.cat_counts.map Prod.snd).sum = r.total_tickets := by
  obtain ⟨a, _, rfl⟩ := List.mem_map.mp hr
  have hfib := length_fiber CATEGORY_LABELS (analyst_group orders a)
    (fun o => get_complexity o.num_skus) (by decide)
    (fun o _ => get_complexity_mem o.num_skus)
  simpa [workload_row, breakdown, total_tickets, List.map_map,
    Function.comp] using hfib

/-- Witness for C2 on a concrete two-analyst, three-order table. -/
theorem workload_breakdown_sums_to_tickets_witness :
    ((workload_row
        [⟨"O1", "A1", "S1", 3, 100, 10⟩, ⟨"O2", "A2", "S1", 30, 50, 5⟩,
         ⟨"O3", "A1", "S2", 70, 20, 8⟩] "A1").cat_counts.map Prod.snd).sum
      = (workload_row
        [⟨"O1", "A1", "S1", 3, 100, 10⟩, ⟨"O2", "A2", "S1", 30, 50, 5⟩,
         ⟨"O3", "A1", "S2", 70, 20, 8⟩] "A1").total_tickets := by
  apply workload_breakdown_sums_to_tickets
  apply List.mem_map.mpr
  refine ⟨"A1", ?_, rfl⟩
  apply (List.perm_insertionSort _ _).mem_iff.mpr
  decide

/-- Support for the imbalance-ratio analysis: every analyst row of
`calculate_workload_by_analyst` has weighted workload at least 1.0 (each
order contributes a weight ≥ 1 and every group is nonempty), so the
minimum weighted workload across analysts is never 0 and the denominator
of `imbalance_ratio` in `detect_workload_imbalance` can never be 0. -/
lemma one_le_weighted_workload (orders : List Order) (r : WorkloadRow)
    (hr : r ∈ calculate_workload_by_analyst orders) :
    1 ≤ r.weighted_workload := by
  obtain ⟨a, ha, rfl⟩ := List.mem_map.mp hr
  have ha2 : a ∈ (orders.map (fun o => o.analyst_id)).dedup :=
    (List.perm_insertionSort _ _).mem_iff.mp ha
  obtain ⟨o, ho, hoa⟩ := List.mem_map.mp (List.mem_dedup.mp ha2)
  have hog : o ∈ analyst_group orders a :=
    List.mem_filter.mpr ⟨ho, by simp [hoa]⟩
  have hw : complexity_weight (get_complexity o.num_skus)
      ∈ (analyst_group orders a).map
        (fun x => complexity_weight (get_complexity x.num_skus)) :=
    List.mem_map_of_mem _ hog
  have h1 : 1 ≤ raw_weighted_workload orders a := by
    refine le_trans (one_le_weight_get_complexity o.num_skus) ?_
    refine List.single_le_sum (fun x hx => ?_) _ hw
    obtain ⟨y, _, rfl⟩ := List.mem_map.mp hx
    exact le_trans (by norm_num) (one_le_weight_get_complexity y.num_skus)
  have hfloor : (100 : ℤ) ≤ round (raw_weighted_workload orders a * 100) := by
    have h2 : round ((100 : ℚ)) ≤ round (raw_weighted_workload orders a * 100) := by
      rw [round_eq, round_eq]
      exact Int.floor_mono (by linarith)
    have h3 : round ((100 : ℚ)) = 100 := by
      norm_num [round_eq]
    omega
  show (1 : ℚ) ≤ round2 (raw_weighted_workload orders a)
  rw [round2, le_div_iff₀ (by norm_num : (0:ℚ) < 100)]
  calc (1 : ℚ) * 100 = ((100 : ℤ) : ℚ) := by norm_num
    _ ≤ _ := by exact_mod_cast hfloor

/-- `groupby('supplier_id')['total_cost'].sum()` for one supplier. -/
def costOf (orders : List Order) (s : String) : ℚ :=
  ((orders.filter (fun o => o.supplier_id = s)).map (fun o => o.total_cost)).sum

/-- The distinct supplier identifiers of the order table. -/
def suppliers_of (orders : List Order) : List String :=
  (orders.map (fun o => o.supplier_id)).dedup

/-- `supplier_purchases` in `calculate_concentration_risk`: per-supplier
cost sums, sorted descending by cost (`sort_values(ascending=False)`). -/
def supplier_purchases (orders : List Order) : List (String × ℚ) :=
  List.insertionSort (fun p q : String × ℚ => q.2 ≤ p.2)
    ((suppliers_of orders).map (fun s => (s, costOf orders s)))

/-- `total_purchases = supplier_purchases.sum()`. -/
def total_purchases (orders : List Order) : ℚ :=
  ((supplier_purchases orders).map Prod.snd).sum

/-- `hhi_index`: squared percentage market shares summed, then `round(2)`.
With a zero total cost the ℚ division yields 0 for every share, matching
the 0.0 that pandas produces there (all shares are NaN and `Series.sum`
skips NaN). -/
def hhi_index (orders : List Order) : ℚ :=
  round2 (((supplier_purchases orders).map
    (fun p => (p.2 / total_purchases orders * 100) ^ 2)).sum)

/-- Dedup of a nonempty constant-valued map is the singleton. -/
lemma dedup_map_const {α κ : Type} [DecidableEq κ] (l : List α) (f : α → κ) (c : κ)
    (hne : l ≠ []) (hall : ∀ a ∈ l, f a = c) : (l.map f).dedup = [c] := by
  induction l with
  | nil => exact absurd rfl hne
  | cons a l ih =>
    by_cases hl2 : l = []
    · subst hl2
      simp [hall a (List.mem_cons_self a [])]
    · have hrec := ih hl2 (fun x hx => hall x (List.mem_cons_of_mem a hx))
      have hfa : f a = c := hall a (List.mem_cons_self a l)
      have hmem : f a ∈ l.map f := by
        rcases List.exists_mem_of_ne_nil l hl2 with ⟨b, hb⟩
        have : f b = c := hall b (List.mem_cons_of_mem a hb)
        rw [hfa, ← this]
        exact List.mem_map_of_mem f hb
      simp [List.dedup_cons_of_mem hmem, hrec]

/-- `round2` is the identity on integer values. -/
lemma round2_intCast (z : ℤ) : round2 ((z : ℚ)) = z := by
  rw [round2]
  have h : (z : ℚ) * 100 = ((z * 100 : ℤ) : ℚ) := by push_cast; ring
  rw [h, round_intCast]
  push_cast
  rw [mul_div_assoc]
  norm_num

/-- Counterexample to C3 as stated: an input whose orders all belong to a
single supplier but whose total cost is 0 gets HHI 0.0 (pandas: the 0/0
market share is NaN, `(...).sum()` skips it and yields 0.0, matching the
ℚ convention 0/0 = 0), not 10000.0. -/
theorem hhi_single_supplier_zero_cost_counterexample :
    hhi_index [⟨"O1", "A1", "S1", 1, 0, 0⟩] = 0 ∧
    hhi_index [⟨"O1", "A1", "S1", 1, 0, 0⟩] ≠ 10000 := by
  have h : hhi_index [⟨"O1", "A1", "S1", 1, 0, 0⟩] = 0 := by
    have h0 : round2 0 = 0 := by
      simpa using round2_intCast 0
    simp [hhi_index, supplier_purchases, suppliers_of, costOf, total_purchases,
      List.insertionSort, List.orderedInsert, h0]
  exact ⟨h, by rw [h]; norm_num⟩

/-- C3 (amended): `calculate_concentration_risk` computes HHI as the sum of
squared percentage market shares; for any input whose orders all belong to
one supplier with nonzero total cost the HHI is exactly 10000.0, and for
any input with exactly two suppliers of equal positive cost the HHI is
exactly 5000.0.  (The amendment adds the nonzero-cost hypotheses forced by
the zero-cost counterexample above.) -/
theorem hhi_extremes (orders : List Order) :
    (∀ s : String, orders ≠ [] → (∀ o ∈ orders, o.supplier_id = s) →
      total_purchases orders ≠ 0 → hhi_index orders = 10000) ∧
    (∀ a b : String, suppliers_of orders = [a, b] →
      costOf orders a = costOf orders b → 0 < costOf orders a →
      hhi_index orders = 5000) := by
  constructor
  · intro s hne hall htp
    have hsup : suppliers_of orders = [s] :=
      dedup_map_const orders (fun o => o.supplier_id) s hne hall
    have hsp : supplier_purchases orders = [(s, costOf orders s)] := by
      rw [supplier_purchases, hsup]
      simp [List.insertionSort]
    have htot : total_purchases orders = costOf orders s := by
      rw [total_purchases, hsp]
      simp
    have hc : costOf orders s ≠ 0 := by rw [htot] at htp; exact htp
    rw [hhi_index, hsp, htot]
    simp only [List.map_cons, List.map_nil, List.sum_cons, List.sum_nil]
    rw [div_self hc]
    norm_num
    simpa using round2_intCast 10000
  · intro a b hsup hceq hcpos
    have hperm : (supplier_purchases orders).Perm
        [(a, costOf orders a), (b, costOf orders b)] := by
      have h1 := List.perm_insertionSort (fun p q : String × ℚ => q.2 ≤ p.2)
        ((suppliers_of orders).map (fun s => (s, costOf orders s)))
      rw [hsup] at h1
      simpa [supplier_purchases, hsup] using h1
    have htot : total_purchases orders = costOf orders a + costOf orders b := by
      rw [total_purchases]
      have h2 := (hperm.map Prod.snd).sum_eq
      simpa using h2
    have hsum : ((supplier_purchases orders).map
        (fun p => (p.2 / total_purchases orders * 100) ^ 2)).sum
        = (costOf orders a / (costOf orders a + costOf orders b) * 100) ^ 2
          + (costOf orders b / (costOf orders a + costOf orders b) * 100) ^ 2 := by
      have h3 := (hperm.map
        (fun p => (p.2 / total_purchases orders * 100) ^ 2)).sum_eq
      rw [h3]
      simp [htot]
    rw [hhi_index, hsum, ← hceq]
    have h2 : costOf orders a + costOf orders a ≠ 0 := by positivity
    have hshare : costOf orders a / (costOf orders a + costOf orders a) = 1 / 2 := by
      rw [div_eq_iff h2]; ring
    rw [hshare]
    norm_num
    simpa using round2_intCast 5000

/-- Witness for C3 (amended) at a concrete two-supplier table with equal
positive costs. -/
theorem hhi_extremes_witness :
    hhi_index [⟨"O1", "A1", "S1", 1, 3, 0⟩, ⟨"O2", "A2", "S2", 1, 3, 0⟩] = 5000 :=
  (hhi_extremes _).2 "S1" "S2" (by decide) (by simp [costOf, List.filter_cons])
    (by simp [costOf, List.filter_cons])

/-- `self.invoices_df['week'].max()` over the (year, week) pairs derived at
ingestion; the 0 default is inert, the claims apply to nonempty data. -/
def max_week (records : List (ℤ × ℤ)) : ℤ :=
  ((records.map Prod.snd).max?).getD 0

/-- `self.invoices_df['year'].max()` — computed independently of
`max_week`, exactly as `calculate_trend` does. -/
def max_year (records : List (ℤ × ℤ)) : ℤ :=
  ((records.map Prod.fst).max?).getD 0

/-- The sequence of `(year, week_num)` arguments the loop of
`calculate_trend` passes to `calculate_weekly_kpis`: `week_num = max_week - i`
for `i = 0, …, weeks-1`, with the single `+52 / year -= 1` adjustment
applied when `week_num < 1`. -/
def trend_periods (records : List (ℤ × ℤ)) (weeks : ℕ) : List (ℤ × ℤ) :=
  (List.range weeks).map (fun (i : ℕ) =>
    if max_week records - (i : ℤ) < 1
    then (max_year records - 1, max_week records - (i : ℤ) + 52)
    else (max_year records, max_week records - (i : ℤ)))

/-- Counterexample to C4 as stated: starting from max week 2, a request for
N = 55 periods visits week 0 (the `+52` wrap is applied only once, so
`i = 54` gives `2 - 54 + 52 = 0`), refuting the claim that every visited
period has week number at least 1 for every N ≥ 1. -/
theorem trend_periods_week_zero_counterexample :
    ((2023 : ℤ), (0 : ℤ)) ∈ trend_periods [(2024, 2), (2024, 1)] 55 := by
  decide

/-- C4 (amended): the trend computation iterates backward from
`(max_year, max_week)` — the two maxima taken independently over the
records, the code's notion of the most recent available period —
decrementing the week and wrapping a week below 1 to week 52 of the prior
year; every visited period has a week number of at least 1 provided the
number of requested periods N does not exceed `max_week + 52` (the bound
forced by the week-0 counterexample); and for N = 4 starting at max week 2
the visited periods are weeks 2, 1 of the max year and 52, 51 of the prior
year. -/
theorem trend_periods_wrap (records : List (ℤ × ℤ)) (N : ℕ)
    (hN : (N : ℤ) ≤ max_week records + 52) :
    (∀ p ∈ trend_periods records N, 1 ≤ p.2) ∧
    (max_week records = 2 → trend_periods records 4 =
      [(max_year records, 2), (max_year records, 1),
       (max_year records - 1, 52), (max_year records - 1, 51)]) := by
  constructor
  · intro p hp
    simp only [trend_periods, List.mem_map, List.mem_range] at hp
    obtain ⟨i, hi, rfl⟩ := hp
    by_cases hcase : max_week records - (i : ℤ) < 1
    · rw [if_pos hcase]
      show (1 : ℤ) ≤ max_week records - (i : ℤ) + 52
      omega
    · rw [if_neg hcase]
      show (1 : ℤ) ≤ max_week records - (i : ℤ)
      omega
  · intro h2
    simp [trend_periods, h2, List.range_succ]

/-- Witness for C4 (amended): with data whose latest week is week 2 of
2024, the four visited periods are (2024, 2), (2024, 1), (2023, 52),
(2023, 51). -/
theorem trend_periods_wrap_witness :
    trend_periods [((2024 : ℤ), (2 : ℤ)), (2024, 1)] 4 =
      [(2024, 2), (2024, 1), (2023, 52), (2023, 51)] := by
  have h := (trend_periods_wrap [((2024 : ℤ), (2 : ℤ)), (2024, 1)] 4
    (by decide)).2 (by decide)
  rw [h]
  norm_num [max_year]

/-- `order_lines_df.merge(skus_df[['sku','category']], on='sku')` in
`identify_specialization`: the default inner join of order lines with SKU
categories, as (order_id, category) pairs in left-frame order; `sku` is a
unique key of the SKUs table, so the first match is the only match. -/
def merged_lines (lines : List OrderLine) (skus : List SKUInfo) :
    List (String × String) :=
  lines.filterMap (fun ln =>
    (skus.find? (fun s => s.sku = ln.sku)).map (fun s => (ln.order_id, s.category)))

/-- The category column of one order's `groupby('order_id')` group over the
joined lines, in join order. -/
def order_categories (lines : List OrderLine) (skus : List SKUInfo)
    (oid : String) : List String :=
  ((merged_lines lines skus).filter (fun p => p.1 = oid)).map Prod.snd

/-- The largest multiplicity occurring in the list. -/
def max_count (cats : List String) : ℕ :=
  (cats.dedup.map (fun c => cats.count c)).foldr max 0

/-- `x.mode()[0]`: pandas returns the modes in sorted order, so index 0 is
the lexicographically smallest category of maximal multiplicity.  The `[]`
branch is unreachable: the tied list is nonempty for nonempty input. -/
def mode0 (cats : List String) : String :=
  match cats.dedup.filter (fun c => cats.count c = max_count cats) with
  | [] => "Sin categoría"
  | t :: ts => ts.foldl (fun a b => if b < a then b else a) t

/-- The lambda of `identify_specialization`:
`x.mode()[0] if len(x) > 0 else 'Sin categoría'`.  The else branch is dead
code — a `groupby` group is never empty. -/
def dominant_category (cats : List String) : String :=
  if cats = [] then "Sin categoría" else mode0 cats

/-- `orders_df.merge(grouped, left_on='order_id', right_index=True)`: the
default inner merge keeps exactly the orders whose id occurs among the
joined lines (the groupby index), pairing each with its dominant
category; orders with no matched lines are dropped. -/
def orders_with_category (orders : List Order) (lines : List OrderLine)
    (skus : List SKUInfo) : List (Order × String) :=
  orders.filterMap (fun o =>
    if (merged_lines lines skus).any (fun p => p.1 = o.order_id)
    then some (o, dominant_category (order_categories lines skus o.order_id))
    else none)

/-- C5: `identify_specialization` silently DROPS an order whose lines match
zero SKU categories instead of labelling it.  Order O1's only line
references sku SKU9, absent from the SKU table, so the inner join leaves O1
with no group and the final inner merge removes it from the output; the
`'Sin categoría'` branch of the lambda (the intended sentinel) is dead
code.  The claim (and spec) state the sentinel behaviour; the code
contradicts the sentinel branch it itself carries. -/
theorem specialization_drops_unmatched_order :
    orders_with_category [⟨"O1", "A1", "S1", 1, 0, 0⟩]
      [⟨"O1", "SKU9", 0⟩] [⟨"SKU1", "Electro"⟩] = [] := by
  rfl

/-- Counterexample to C9 as stated: for an order whose lines are categories
Beta then Alfa (each once), the first category encountered in the join
order is Beta, but the code selects `mode()[0]` = Alfa, the
lexicographically smallest of the tied modes — not the first encountered. -/
theorem dominant_category_tie_not_first_encountered :
    (order_categories [⟨"O1", "SB", 0⟩, ⟨"O1", "SA", 0⟩]
      [⟨"SB", "Beta"⟩, ⟨"SA", "Alfa"⟩] "O1").head? = some "Beta" ∧
    dominant_category (order_categories [⟨"O1", "SB", 0⟩, ⟨"O1", "SA", 0⟩]
      [⟨"SB", "Beta"⟩, ⟨"SA", "Alfa"⟩] "O1") = "Alfa" ∧
    ("Alfa" : String) ≠ "Beta" := by
  have hlt : ("Alfa" : String) < "Beta" := by
    rw [String.lt_iff_toList_lt]
    decide
  have heval : order_categories [⟨"O1", "SB", 0⟩, ⟨"O1", "SA", 0⟩]
      [⟨"SB", "Beta"⟩, ⟨"SA", "Alfa"⟩] "O1" = ["Beta", "Alfa"] := by rfl
  have hmode : mode0 ["Beta", "Alfa"]
      = if ("Alfa" : String) < "Beta" then "Alfa" else "Beta" := by rfl
  refine ⟨by rw [heval]; rfl, ?_, by decide⟩
  rw [heval, dominant_category, if_neg (by decide : ¬(["Beta", "Alfa"] = ([] : List String))),
    hmode, if_pos hlt]

/-- The running lexicographic minimum stays inside the list. -/
lemma foldl_min_mem (t : String) (ts : List String) :
    ts.foldl (fun a b => if b < a then b else a) t ∈ t :: ts := by
  induction ts generalizing t with
  | nil => simp
  | cons b bs ih =>
    simp only [List.foldl_cons]
    by_cases h : b < t
    · rw [if_pos h]
      have hm := ih b
      simp only [List.mem_cons] at hm ⊢
      tauto
    · rw [if_neg h]
      have hm := ih t
      simp only [List.mem_cons] at hm ⊢
      tauto

/-- The running lexicographic minimum is below every element. -/
lemma foldl_min_le (t : String) (ts : List String) :
    ∀ c ∈ t :: ts, ts.foldl (fun a b => if b < a then b else a) t ≤ c := by
  induction ts generalizing t with
  | nil =>
    intro c hc
    simp only [List.mem_cons, List.not_mem_nil, or_false] at hc
    subst hc
    exact le_refl _
  | cons b bs ih =>
    intro c hc
    simp only [List.foldl_cons]
    by_cases h : b < t
    · rw [if_pos h]
      rcases List.mem_cons.mp hc with rfl | hc2
      · exact le_trans (ih b b (List.mem_cons_self b bs)) (le_of_lt h)
      · exact ih b c hc2
    · rw [if_neg h]
      have htb : t ≤ b := not_lt.mp h
      rcases List.mem_cons.mp hc with rfl | hc2
      · exact ih c c (List.mem_cons_self c bs)
      · rcases List.mem_cons.mp hc2 with rfl | hc3
        · exact le_trans (ih t t (List.mem_cons_self t bs)) htb
        · exact ih t c (List.mem_cons_of_mem t hc3)

/-- Elements are bounded by the running maximum. -/
lemma le_foldr_max : ∀ (l : List ℕ) (x : ℕ), x ∈ l → x ≤ l.foldr max 0 := by
  intro l
  induction l with
  | nil => simp
  | cons a as ih =>
    intro x hx
    simp only [List.foldr_cons]
    rcases List.mem_cons.mp hx with rfl | h
    · exact le_max_left _ _
    · exact le_trans (ih x h) (le_max_right _ _)

/-- The running maximum is 0 or attained. -/
lemma foldr_max_mem : ∀ l : List ℕ, l.foldr max 0 = 0 ∨ l.foldr max 0 ∈ l := by
  intro l
  induction l with
  | nil => left; rfl
  | cons a as ih =>
    simp only [List.foldr_cons]
    rcases ih with h0 | hm
    · rw [h0, Nat.max_zero]
      right
      exact List.mem_cons_self a as
    · rcases max_choice a (as.foldr max 0) with h | h <;> rw [h]
      · right; exact List.mem_cons_self a as
      · right; exact List.mem_cons_of_mem a hm

/-- Every multiplicity is bounded by `max_count`. -/
lemma count_le_max_count (cats : List String) (c : String) (hc : c ∈ cats) :
    cats.count c ≤ max_count cats :=
  le_foldr_max _ _ (List.mem_map_of_mem _ (List.mem_dedup.mpr hc))

/-- `max_count` is attained on nonempty input. -/
lemma max_count_attained (cats : List String) (hne : cats ≠ []) :
    ∃ c ∈ cats.dedup, cats.count c = max_count cats := by
  rcases foldr_max_mem (cats.dedup.map (fun c => cats.count c)) with h0 | hm
  · exfalso
    obtain ⟨a, ha⟩ := List.exists_mem_of_ne_nil cats hne
    have h1 : 1 ≤ cats.count a := List.count_pos_iff.mpr ha
    have h2 : cats.count a ≤ max_count cats := count_le_max_count cats a ha
    rw [max_count] at h2
    omega
  · obtain ⟨c, hcd, hcc⟩ := List.mem_map.mp hm
    exact ⟨c, hcd, hcc⟩

/-- C9 (amended): in the specialization pipeline, the dominant category of
an order with at least one joined line is a category of its lines with
maximal multiplicity, and among the categories tied for most frequent it is
the lexicographically smallest (pandas `mode()` returns the modes sorted,
and `[0]` takes the first) — not the first category encountered in the
join order, which the tie counterexample above refutes. -/
theorem dominant_category_min_of_modes (lines : List OrderLine)
    (skus : List SKUInfo) (oid : String)
    (hne : order_categories lines skus oid ≠ []) :
    dominant_category (order_categories lines skus oid)
        ∈ order_categories lines skus oid ∧
    (∀ c ∈ order_categories lines skus oid,
      (order_categories lines skus oid).count c
        ≤ (order_categories lines skus oid).count
            (dominant_category (order_categories lines skus oid))) ∧
    (∀ c ∈ order_categories lines skus oid,
      (order_categories lines skus oid).count c
          = (order_categories lines skus oid).count
              (dominant_category (order_categories lines skus oid)) →
      dominant_category (order_categories lines skus oid) ≤ c) := by
  set cats := order_categories lines skus oid with hcats
  clear_value cats
  rw [dominant_category, if_neg hne]
  obtain ⟨c0, hc0d, hc0⟩ := max_count_attained cats hne
  rcases htl : cats.dedup.filter (fun c => cats.count c = max_count cats)
    with _ | ⟨t, ts⟩
  · exfalso
    have hmem : c0 ∈ cats.dedup.filter (fun c => cats.count c = max_count cats) :=
      List.mem_filter.mpr ⟨hc0d, by simp [hc0]⟩
    rw [htl] at hmem
    exact List.not_mem_nil c0 hmem
  · have hmode : mode0 cats = ts.foldl (fun a b => if b < a then b else a) t := by
      rw [mode0, htl]
    rw [hmode]
    have hm_tied : ts.foldl (fun a b => if b < a then b else a) t
        ∈ cats.dedup.filter (fun c => cats.count c = max_count cats) := by
      rw [htl]
      exact foldl_min_mem t ts
    obtain ⟨hm_dedup, hm_cnt⟩ := List.mem_filter.mp hm_tied
    have hm_cnt2 : cats.count (ts.foldl (fun a b => if b < a then b else a) t)
        = max_count cats := by
      simpa using hm_cnt
    refine ⟨List.mem_dedup.mp hm_dedup, ?_, ?_⟩
    · intro c hc
      rw [hm_cnt2]
      exact count_le_max_count cats c hc
    · intro c hc hceq
      have hc_tied : c ∈ t :: ts := by
        rw [← htl]
        refine List.mem_filter.mpr ⟨List.mem_dedup.mpr hc, ?_⟩
        simp only [decide_eq_true_eq]
        rw [hceq]
        exact hm_cnt2
      exact foldl_min_le t ts c hc_tied

/-- Witness for C9 (amended) on a one-line order: its single category is
selected and trivially satisfies the mode and tie-break properties. -/
theorem dominant_category_min_of_modes_witness :
    dominant_category (order_categories [⟨"O1", "S1", 0⟩]
      [⟨"S1", "Electro"⟩] "O1") ∈ order_categories [⟨"O1", "S1", 0⟩]
      [⟨"S1", "Electro"⟩] "O1" :=
  (dominant_category_min_of_modes [⟨"O1", "S1", 0⟩] [⟨"S1", "Electro"⟩] "O1"
    (by decide)).1

/-- One selected output row of `identify_margin_opportunities` (the columns
the function returns). -/
structure OppRow where
  order_id : String
  supplier_id : String
  total_cost : ℚ
  margin_pct : ℚ
  improvement_potential : ℚ
  potential_additional_margin : ℚ
  deriving DecidableEq

/-- The enrichment of one selected order:
`improvement_potential = threshold - margin_pct` and
`potential_additional_margin = total_cost * improvement_potential / 100`. -/
def opp_row (threshold : ℚ) (o : Order) : OppRow where
  order_id := o.order_id
  supplier_id := o.supplier_id
  total_cost := o.total_cost
  margin_pct := o.margin_pct
  improvement_potential := threshold - o.margin_pct
  potential_additional_margin := o.total_cost * (threshold - o.margin_pct) / 100

/-- `identify_margin_opportunities`: keep the orders with
`margin_pct < threshold` (strict), derive the two columns, and sort
descending by potential additional margin. -/
def identify_margin_opportunities (orders : List Order) (threshold : ℚ) :
    List OppRow :=
  List.insertionSort
    (fun a b : OppRow =>
      b.potential_additional_margin ≤ a.potential_additional_margin)
    ((orders.filter (fun o => o.margin_pct < threshold)).map (opp_row threshold))

/-- C6: `identify_margin_opportunities` returns exactly the orders with
margin percentage strictly below the threshold (as a permutation of the
enriched filtered table), sorted in descending order of potential
additional margin, each row carrying
`improvement_potential = threshold - margin_pct` and
`potential_additional_margin = total_cost * improvement_potential / 100`;
in particular an order with cost 1000 and margin 5 under threshold 15
yields improvement potential 10 and potential additional margin 100.0. -/
theorem margin_opportunities_spec (orders : List Order) (threshold : ℚ) :
    (identify_margin_opportunities orders threshold).Perm
      ((orders.filter (fun o => o.margin_pct < threshold)).map
        (opp_row threshold)) ∧
    (identify_margin_opportunities orders threshold).Pairwise
      (fun a b =>
        b.potential_additional_margin ≤ a.potential_additional_margin) ∧
    (∀ r ∈ identify_margin_opportunities orders threshold,
      r.margin_pct < threshold ∧
      r.improvement_potential = threshold - r.margin_pct ∧
      r.potential_additional_margin
        = r.total_cost * r.improvement_potential / 100) ∧
    (opp_row 15 ⟨"OX", "AX", "SX", 1, 1000, 5⟩).improvement_potential = 10 ∧
    (opp_row 15 ⟨"OX", "AX", "SX", 1, 1000, 5⟩).potential_additional_margin
      = 100 := by
  refine ⟨List.perm_insertionSort _ _, ?_, ?_, by norm_num [opp_row], by norm_num [opp_row]⟩
  · haveI ht : IsTotal OppRow (fun a b =>
        b.potential_additional_margin ≤ a.potential_additional_margin) :=
      ⟨fun a b => le_total _ _⟩
    haveI htr : IsTrans OppRow (fun a b =>
        b.potential_additional_margin ≤ a.potential_additional_margin) :=
      ⟨fun _ _ _ h1 h2 => le_trans h2 h1⟩
    exact List.sorted_insertionSort _ _
  · intro r hr
    have hr2 : r ∈ (orders.filter (fun o => o.margin_pct < threshold)).map
        (opp_row threshold) :=
      (List.perm_insertionSort _ _).mem_iff.mp hr
    obtain ⟨o, ho, rfl⟩ := List.mem_map.mp hr2
    obtain ⟨_, hlt⟩ := List.mem_filter.mp ho
    refine ⟨by simpa [opp_row] using of_decide_eq_true hlt, by simp [opp_row], by simp [opp_row]⟩

/-- Witness for C6 on a one-order table: the order (cost 1000, margin 5)
is selected under threshold 15 and its derived columns satisfy the
contract. -/
theorem margin_opportunities_spec_witness :
    (opp_row 15 ⟨"OX", "AX", "SX", 1, 1000, 5⟩).margin_pct < 15 ∧
    (opp_row 15 ⟨"OX", "AX", "SX", 1, 1000, 5⟩).improvement_potential
      = 15 - (opp_row 15 ⟨"OX", "AX", "SX", 1, 1000, 5⟩).margin_pct ∧
    (opp_row 15 ⟨"OX", "AX", "SX", 1, 1000, 5⟩).potential_additional_margin
      = (opp_row 15 ⟨"OX", "AX", "SX", 1, 1000, 5⟩).total_cost
        * (opp_row 15 ⟨"OX", "AX", "SX", 1, 1000, 5⟩).improvement_potential / 100 := by
  refine (margin_opportunities_spec [⟨"OX", "AX", "SX", 1, 1000, 5⟩] 15).2.2.1
    (opp_row 15 ⟨"OX", "AX", "SX", 1, 1000, 5⟩) ?_
  refine (List.perm_insertionSort _ _).mem_iff.mpr ?_
  simp [List.filter_cons]
  norm_num

/-- One output row of `analyze_by_category`. -/
structure CatRow where
  category : String
  num_orders : ℕ
  total_sales : ℚ
  avg_margin_pct : ℚ
  pct_sales : ℚ
  deriving DecidableEq

/-- The joined rows of `analyze_by_category`: order lines inner-joined with
SKU categories on the unique key `sku`, then inner-joined with the orders
table on the unique key `order_id` to fetch `margin_pct`. -/
def lines_with_order (orders : List Order) (lines : List OrderLine)
    (skus : List SKUInfo) : List (OrderLine × String × ℚ) :=
  (lines.filterMap (fun ln =>
    (skus.find? (fun s => s.sku = ln.sku)).map (fun s => (ln, s.category)))).filterMap
    (fun p => (orders.find? (fun o => o.order_id = p.1.order_id)).map
      (fun o => (p.1, p.2, o.margin_pct)))

/-- One `groupby('category')` row of `analyze_by_category`: distinct-order
count (`nunique`), summed line totals, mean margin, sales share — share
computed from the unrounded sums, then the final `round(2)` applied. -/
def category_row (orders : List Order) (lines : List OrderLine)
    (skus : List SKUInfo) (c : String) : CatRow :=
  let grp := (lines_with_order orders lines skus).filter (fun x => x.2.1 = c)
  let sales := (grp.map (fun x => x.1.line_total)).sum
  let grand :=
    ((lines_with_order orders lines skus).map (fun x => x.1.line_total)).sum
  { category := c
    num_orders := ((grp.map (fun x => x.1.order_id)).dedup).length
    total_sales := round2 sales
    avg_margin_pct := round2 ((grp.map (fun x => x.2.2)).sum / (grp.length : ℚ))
    pct_sales := round2 (sales / grand * 100) }

/-- The successful result of `analyze_by_category`: one row per category
present in the joined lines, sorted descending by (rounded) total sales. -/
def analyze_by_category_result (orders : List Order) (lines : List OrderLine)
    (skus : List SKUInfo) : List CatRow :=
  List.insertionSort (fun a b : CatRow => b.total_sales ≤ a.total_sales)
    ((((lines_with_order orders lines skus).map (fun x => x.2.1)).dedup).map
      (category_row orders lines skus))

/-- The state of `FinancialPerformanceKPI`: the orders table and the
optional order-lines table (`none` embeds construction with
`order_lines_df=None`). -/
structure FinancialPerformanceKPI where
  orders_df : List Order
  order_lines_df : Option (List OrderLine)

/-- `analyze_by_category`: raises
`ValueError('Se requiere order_lines_df para análisis por categoría')`
when the instance holds no line-item table — embedded as `Except.error` —
and otherwise returns the per-category metrics table. -/
def analyze_by_category (kpi : FinancialPerformanceKPI)
    (skus : List SKUInfo) : Except String (List CatRow) :=
  match kpi.order_lines_df with
  | none => .error "Se requiere order_lines_df para análisis por categoría"
  | some lines => .ok (analyze_by_category_result kpi.orders_df lines skus)

/-- C7: for every `FinancialPerformanceKPI` constructed without line-item
data, `analyze_by_category` fails with the configuration error naming the
missing `order_lines_df` dependency (the error text is exactly the
source's message, which names it); being equal to `.error`, the call never
returns an `.ok` result. -/
theorem analyze_by_category_requires_order_lines
    (orders : List Order) (skus : List SKUInfo) :
    analyze_by_category ⟨orders, none⟩ skus
      = .error "Se requiere order_lines_df para análisis por categoría" := rfl
